import Mathlib

/-!
Verification of the archive.org site ripper (src/ripper.py and
src/archive_ripper_batch_gui.py) against its natural-language specification.

The Python source is shallowly embedded: strings are `List Char`
(written `Str`), byte strings are `List Nat` (written `Bytes`, each
element a byte value), and the stateful parts of `process_asset` are
embedded as a state-passing function over an explicit environment that
supplies filesystem, network and collaborator behaviour.  Machine
integers do not occur in the source (Python integers are unbounded);
the 32-bit arithmetic inside MD5 is modelled with explicit `% 2 ^ 32`.
-/

namespace Ripper

abbrev Str := List Char

abbrev Bytes := List Nat

/-- UTF-8 encoding of one character (Python `str.encode()` pointwise). -/
def utf8Char (c : Char) : Bytes :=
  let n := c.toNat
  if n < 128 then [n]
  else if n < 2048 then
    [192 + n / 64, 128 + n % 64]
  else if n < 65536 then
    [224 + n / 4096, 128 + n / 64 % 64, 128 + n % 64]
  else
    [240 + n / 262144, 128 + n / 4096 % 64, 128 + n / 64 % 64, 128 + n % 64]

/-- UTF-8 encoding of a string, as Python `str.encode()`. -/
def utf8 (s : Str) : Bytes := s.flatMap utf8Char

/-! ## MD5 (as used by `hashlib.md5` in the source)

A direct implementation of RFC 1321 over byte lists.  All word
arithmetic is `Nat` reduced `% 2 ^ 32`. -/

/-- The 64 MD5 sine-derived constants. -/
def md5K : List Nat :=
  [0xd76aa478, 0xe8c7b756, 0x242070db, 0xc1bdceee,
   0xf57c0faf, 0x4787c62a, 0xa8304613, 0xfd469501,
   0x698098d8, 0x8b44f7af, 0xffff5bb1, 0x895cd7be,
   0x6b901122, 0xfd987193, 0xa679438e, 0x49b40821,
   0xf61e2562, 0xc040b340, 0x265e5a51, 0xe9b6c7aa,
   0xd62f105d, 0x02441453, 0xd8a1e681, 0xe7d3fbc8,
   0x21e1cde6, 0xc33707d6, 0xf4d50d87, 0x455a14ed,
   0xa9e3e905, 0xfcefa3f8, 0x676f02d9, 0x8d2a4c8a,
   0xfffa3942, 0x8771f681, 0x6d9d6122, 0xfde5380c,
   0xa4beea44, 0x4bdecfa9, 0xf6bb4b60, 0xbebfbc70,
   0x289b7ec6, 0xeaa127fa, 0xd4ef3085, 0x04881d05,
   0xd9d4d039, 0xe6db99e5, 0x1fa27cf8, 0xc4ac5665,
   0xf4292244, 0x432aff97, 0xab9423a7, 0xfc93a039,
   0x655b59c3, 0x8f0ccc92, 0xffeff47d, 0x85845dd1,
   0x6fa87e4f, 0xfe2ce6e0, 0xa3014314, 0x4e0811a1,
   0xf7537e82, 0xbd3af235, 0x2ad7d2bb, 0xeb86d391]

/-- The 64 MD5 per-round left-rotation amounts. -/
def md5S : List Nat :=
  [7, 12, 17, 22, 7, 12, 17, 22, 7, 12, 17, 22, 7, 12, 17, 22,
   5, 9, 14, 20, 5, 9, 14, 20, 5, 9, 14, 20, 5, 9, 14, 20,
   4, 11, 16, 23, 4, 11, 16, 23, 4, 11, 16, 23, 4, 11, 16, 23,
   6, 10, 15, 21, 6, 10, 15, 21, 6, 10, 15, 21, 6, 10, 15, 21]

/-- 32-bit left rotation. -/
def rotl32 (x c : Nat) : Nat :=
  ((x <<< c) % 4294967296) ||| (x >>> (32 - c))

/-- 32-bit bitwise complement. -/
def not32 (x : Nat) : Nat := x ^^^ 4294967295

/-- MD5 padding: append `0x80`, zero bytes to 56 mod 64, then the
64-bit little-endian bit length. -/
def md5Pad (msg : Bytes) : Bytes :=
  let len := msg.length
  let zeros := (56 + 64 - (len + 1) % 64) % 64
  let bitLen := (len * 8) % (2 ^ 64)
  msg ++ [128] ++ List.replicate zeros 0 ++
    [bitLen % 256, bitLen / 256 % 256, bitLen / 65536 % 256,
     bitLen / 16777216 % 256, bitLen / 4294967296 % 256,
     bitLen / 1099511627776 % 256, bitLen / 281474976710656 % 256,
     bitLen / 72057594037927936 % 256]

/-- Split a byte list into 64-byte blocks (fuel-driven; called with
fuel ≥ length, and the padded message length is a multiple of 64). -/
def chunk64 : Nat → Bytes → List Bytes
  | 0, _ => []
  | _ + 1, [] => []
  | fuel + 1, l => l.take 64 :: chunk64 fuel (l.drop 64)

/-- Little-endian 32-bit word `j` of a 64-byte block. -/
def blockWord (blk : Bytes) (j : Nat) : Nat :=
  blk.getD (4 * j) 0 + 256 * blk.getD (4 * j + 1) 0 +
    65536 * blk.getD (4 * j + 2) 0 + 16777216 * blk.getD (4 * j + 3) 0

/-- One MD5 round `i` on state `(a, b, c, d)` for block `blk`. -/
def md5Round (blk : Bytes) (st : Nat × Nat × Nat × Nat) (i : Nat) :
    Nat × Nat × Nat × Nat :=
  let (a, b, c, d) := st
  let fg :=
    if i < 16 then ((b &&& c) ||| (not32 b &&& d), i)
    else if i < 32 then ((d &&& b) ||| (not32 d &&& c), (5 * i + 1) % 16)
    else if i < 48 then (b ^^^ c ^^^ d, (3 * i + 5) % 16)
    else (c ^^^ (b ||| not32 d), (7 * i) % 16)
  let f := (fg.1 + a + md5K.getD i 0 + blockWord blk fg.2) % 4294967296
  (d, (b + rotl32 f (md5S.getD i 0)) % 4294967296, b, c)

/-- Process one 64-byte block, updating the four chaining words. -/
def md5Block (h : Nat × Nat × Nat × Nat) (blk : Bytes) :
    Nat × Nat × Nat × Nat :=
  let (a, b, c, d) := (List.range 64).foldl (md5Round blk) h
  ((h.1 + a) % 4294967296, (h.2.1 + b) % 4294967296,
   (h.2.2.1 + c) % 4294967296, (h.2.2.2 + d) % 4294967296)

/-- Little-endian byte decomposition of a 32-bit word. -/
def wordBytes (w : Nat) : Bytes :=
  [w % 256, w / 256 % 256, w / 65536 % 256, w / 16777216 % 256]

/-- The 16-byte MD5 digest of a byte string. -/
def md5 (msg : Bytes) : Bytes :=
  let padded := md5Pad msg
  let h := (chunk64 padded.length padded).foldl md5Block
    (0x67452301, 0xefcdab89, 0x98badcfe, 0x10325476)
  wordBytes h.1 ++ wordBytes h.2.1 ++ wordBytes h.2.2.1 ++ wordBytes h.2.2.2

/-- Lowercase hex digit for a value `< 16`. -/
def hexDigit (n : Nat) : Char := "0123456789abcdef".toList.getD n '0'

/-- Two lowercase hex digits of a byte. -/
def hexByte (b : Nat) : Str := [hexDigit (b / 16 % 16), hexDigit (b % 16)]

/-- `hashlib.md5(...).hexdigest()`: 32 lowercase hex characters. -/
def md5hex (msg : Bytes) : Str := (md5 msg).flatMap hexByte

/-- `hashlib.md5(q.encode()).hexdigest()[:8]` as in `compute_local_path`. -/
def md5h8 (q : Str) : Str := (md5hex (utf8 q)).take 8

/-- Sanity check against the RFC 1321 test vector for "abc". -/
theorem md5hex_abc : md5hex (utf8 "abc".toList) =
    "900150983cd24fb0d6963f7d28e17f72".toList := by decide

/-! ## Snapshot addressing (src/ripper.py lines 20, 69-78, 178-182) -/

/-- `ARCHIVE_PREFIX` from the source. -/
def ARCHIVE_PREFIX : Str := "https://web.archive.org/web/".toList

/-- `make_archive_url(timestamp, original_url, raw)`: string building by
f-string concatenation. -/
def make_archive_url (timestamp original_url : Str) (raw : Bool) : Str :=
  if raw then ARCHIVE_PREFIX ++ timestamp ++ "id_/".toList ++ original_url
  else ARCHIVE_PREFIX ++ timestamp ++ "/".toList ++ original_url

/-- Strip an exact prefix, character by character. -/
def stripPre : Str → Str → Option Str
  | [], s => some s
  | _ :: _, [] => none
  | p :: ps, c :: cs => if c = p then stripPre ps cs else none

/-- Group 2 of the trailing `(.*)$` of the source's regex: `.` does not
match a newline and `$` also matches just before one final newline, so
the group is the text before the newline when at most one trailing
newline is present, and the regex fails otherwise. -/
def dotStarEnd (t : Str) : Option Str :=
  let pre := t.takeWhile (· ≠ '\n')
  match t.dropWhile (· ≠ '\n') with
  | [] => some pre
  | ['\n'] => some pre
  | _ => none

/-- Python `str.rfind(pat)` for nonempty `pat`: index of the last
occurrence of `pat` as a substring, `none` when absent. -/
def rfindSub (pat : Str) : Str → Option Nat
  | [] => if pat.isPrefixOf ([] : Str) then some 0 else none
  | c :: cs =>
    match rfindSub pat cs with
    | some i => some (i + 1)
    | none => if pat.isPrefixOf (c :: cs) then some 0 else none

/-- `parse_archive_url(url)`: matches
`^https?://web\.archive\.org/web/(\d+)[^/]*/(.*)$` (with `\d` modelled
as ASCII digits), then locates the last occurrence of `http` in group 2
via `rfind`; `none` models the raised `ValueError`. -/
def parse_archive_url (url : Str) : Option (Str × Str) :=
  let rest? :=
    match stripPre "https://web.archive.org/web/".toList url with
    | some r => some r
    | none => stripPre "http://web.archive.org/web/".toList url
  match rest? with
  | none => none
  | some r =>
    if r.takeWhile Char.isDigit = [] then none
    else
      match (r.dropWhile Char.isDigit).dropWhile (· ≠ '/') with
      | [] => none
      | _ :: tail =>
        match dotStarEnd tail with
        | none => none
        | some g2 =>
          match rfindSub "http".toList g2 with
          | none => none
          | some i => some (r.takeWhile Char.isDigit, g2.drop i)

theorem stripPre_append : ∀ (p s : Str), stripPre p (p ++ s) = some s
  | [], _ => rfl
  | c :: ps, s => by simp [stripPre, stripPre_append ps s]

theorem takeWhile_append_of_all {p : Char → Bool} :
    ∀ {l r : Str}, (∀ c ∈ l, p c = true) →
      (l ++ r).takeWhile p = l ++ r.takeWhile p
  | [], _, _ => rfl
  | c :: l, r, h => by
    have hc : p c = true := h c (List.mem_cons_self c l)
    have ih := takeWhile_append_of_all (l := l) (r := r)
      fun x hx => h x (List.mem_cons_of_mem c hx)
    simp only [List.cons_append, List.takeWhile_cons, hc, ih]
    simp

theorem dropWhile_append_of_all {p : Char → Bool} :
    ∀ {l r : Str}, (∀ c ∈ l, p c = true) →
      (l ++ r).dropWhile p = r.dropWhile p
  | [], _, _ => rfl
  | c :: l, r, h => by
    have hc : p c = true := h c (List.mem_cons_self c l)
    have ih := dropWhile_append_of_all (l := l) (r := r)
      fun x hx => h x (List.mem_cons_of_mem c hx)
    simp only [List.cons_append, List.dropWhile_cons, hc, ih]
    simp

theorem rfindSub_found (pat : Str) :
    ∀ (s : Str) (i : Nat), rfindSub pat s = some i →
      pat.isPrefixOf (s.drop i) = true := by
  intro s
  induction s with
  | nil =>
    intro i h
    rw [rfindSub] at h
    split at h
    · rename_i hp
      injection h with h0
      subst h0
      exact hp
    · cases h
  | cons c cs ih =>
    intro i h
    rw [rfindSub] at h
    split at h
    · rename_i j hr
      injection h with h0
      subst h0
      exact ih j hr
    · rename_i hr
      split at h
      · rename_i hp
        injection h with h0
        subst h0
        exact hp
      · cases h

/-- C1 fails as stated: the claim quantifies over every timestamp string
and every absolute original URL, but `rfind('http')` locks onto the last
occurrence of `http` inside the original URL, so a URL containing `http`
beyond position 0 does not round-trip. -/
theorem C1_counterexample :
    parse_archive_url
        (make_archive_url "2015".toList "http://a.com/xhttp".toList false) ≠
      some ("2015".toList, "http://a.com/xhttp".toList) := by decide

/-- C1 (amended): the round-trip
`parse_archive_url (make_archive_url ts orig raw=false) = (ts, orig)`
holds provided the timestamp is a nonempty ASCII-digit string and the
original URL starts with `http`, contains `http` at no later position
(so its last occurrence is index 0), and contains no newline. -/
theorem C1_roundtrip_amended (ts orig : Str) (hne : ts ≠ [])
    (hdig : ∀ c ∈ ts, c.isDigit = true)
    (hh : rfindSub "http".toList orig = some 0)
    (hnl : '\n' ∉ orig) :
    parse_archive_url (make_archive_url ts orig false) = some (ts, orig) := by
  have hmk : make_archive_url ts orig false =
      "https://web.archive.org/web/".toList ++ (ts ++ '/' :: orig) := by
    simp [make_archive_url, ARCHIVE_PREFIX]
  rw [hmk]
  rw [parse_archive_url]
  simp only [stripPre_append]
  rw [takeWhile_append_of_all hdig, dropWhile_append_of_all hdig]
  have hsl : Char.isDigit '/' = false := rfl
  simp only [List.takeWhile_cons, List.dropWhile_cons, hsl, List.append_nil,
    Bool.false_eq_true, if_false]
  rw [if_neg hne]
  have hsl2 : (decide ('/' ≠ '/')) = false := by decide
  simp only [List.dropWhile_cons, hsl2, Bool.false_eq_true, if_false]
  have hAll : ∀ c ∈ orig, (decide (c ≠ '\n')) = true :=
    fun c hc => decide_eq_true fun he => hnl (he ▸ hc)
  have h1 : orig.takeWhile (fun c => decide (c ≠ '\n')) = orig := by
    have := takeWhile_append_of_all (l := orig) (r := ([] : Str)) hAll
    simpa using this
  have h2 : orig.dropWhile (fun c => decide (c ≠ '\n')) = ([] : Str) := by
    have := dropWhile_append_of_all (l := orig) (r := ([] : Str)) hAll
    simpa using this
  simp only [dotStarEnd, h1, h2]
  rw [hh]
  simp

/-- C1 witness: a concrete well-formed pair round-trips. -/
theorem C1_witness :
    parse_archive_url
        (make_archive_url "20150101000000".toList
          "http://example.com/index.html".toList false) =
      some ("20150101000000".toList, "http://example.com/index.html".toList) :=
  C1_roundtrip_amended _ _ (by decide) (by decide) (by decide) (by decide)

/-- C9 fails as stated: `parse_archive_url` accepts a 3-digit timestamp
and returns an original component `httpxyz` that is not an absolute URL
(it contains no `:` at all). -/
theorem C9_counterexample :
    parse_archive_url "https://web.archive.org/web/123/httpxyz".toList =
        some ("123".toList, "httpxyz".toList) ∧
      ("123".toList).length ≠ 14 ∧ ':' ∉ "httpxyz".toList := by decide

/-- C9 (amended): whenever `parse_archive_url` succeeds, the timestamp
component is a nonempty ASCII-digit string (not necessarily of length
14) and the original-URL component starts with `http` (but need not be
an absolute URL); malformed input yields the error, never a partial
result. -/
theorem C9_parse_invariant_amended (url t o : Str)
    (h : parse_archive_url url = some (t, o)) :
    t ≠ [] ∧ (∀ c ∈ t, c.isDigit = true) ∧
      "http".toList.isPrefixOf o = true := by
  rw [parse_archive_url] at h
  split at h
  · cases h
  · rename_i r hr
    split at h
    · cases h
    · rename_i hne
      split at h
      · cases h
      · rename_i c0 tail0 hdw
        split at h
        · cases h
        · rename_i g2 hg2
          split at h
          · cases h
          · rename_i i hi
            injection h with h0
            injection h0 with ht ho
            subst ht
            subst ho
            refine ⟨hne, fun c hc => List.mem_takeWhile_imp hc, ?_⟩
            exact rfindSub_found _ _ _ hi

/-- C9 witness: a concrete successful parse satisfying the invariant. -/
theorem C9_witness :
    ("123".toList : Str) ≠ [] ∧
      (∀ c ∈ ("123".toList : Str), c.isDigit = true) ∧
      "http".toList.isPrefixOf "httpxyz".toList = true :=
  C9_parse_invariant_amended
    "https://web.archive.org/web/123/httpxyz".toList _ _ (by decide)

/-! ## urllib.parse.urlparse, as consulted by the source

The source reads `.path`, `.query` and `.netloc` of `urlparse(url)`.
This follows CPython `urlsplit` plus the params split of `urlparse`:
scheme before the first `:` when it starts with an ASCII letter and
uses only scheme characters, netloc after `//` up to `/`, `?` or `#`,
fragment at the first `#`, query at the first `?`, and params after the
first `;` of the last path segment. -/

/-- A parsed URL (the fields of Python's `ParseResult`). -/
structure UrlParts where
  scheme : Str
  netloc : Str
  path : Str
  params : Str
  query : Str
  fragment : Str

/-- Characters allowed in a URL scheme. -/
def schemeChar (c : Char) : Bool :=
  c.isAlphanum || c = '+' || c = '-' || c = '.'

/-- Split at the first occurrence of `c`: text before it, and the text
after it when present. -/
def splitFirst (c : Char) : Str → Str × Option Str
  | [] => ([], none)
  | x :: xs =>
    if x = c then ([], some xs)
    else
      let r := splitFirst c xs
      (x :: r.1, r.2)

/-- `str.find(c, start)` as an optional index. -/
def findFrom (c : Char) (s : Str) (start : Nat) : Option Nat :=
  match (s.drop start).findIdx? (fun x => x = c) with
  | some j => some (start + j)
  | none => none

/-- CPython `urllib.parse._splitparams`. -/
def splitparams (u : Str) : Str × Str :=
  let start := match rfindSub ['/'] u with | some k => k | none => 0
  match findFrom ';' u start with
  | none => (u, [])
  | some i => (u.take i, u.drop (i + 1))

/-- `urllib.parse.urlparse` (fields used by the source; `\w`-class
checks are ASCII, matching the URLs the program handles). -/
def pyUrlparse (url : Str) : UrlParts :=
  let schemeRest :=
    match url.findIdx? (fun c => c = ':') with
    | some i =>
      if 0 < i ∧ (url.headD ' ').isAlpha ∧ (url.take i).all schemeChar then
        ((url.take i).map Char.toLower, url.drop (i + 1))
      else ([], url)
    | none => ([], url)
  let scheme := schemeRest.1
  let netlocRest :=
    match schemeRest.2 with
    | '/' :: '/' :: r =>
      (r.takeWhile (fun c => ¬(c = '/' ∨ c = '?' ∨ c = '#')),
       r.dropWhile (fun c => ¬(c = '/' ∨ c = '?' ∨ c = '#')))
    | other => ([], other)
  let fragSplit := splitFirst '#' netlocRest.2
  let fragment := fragSplit.2.getD []
  let querySplit := splitFirst '?' fragSplit.1
  let query := querySplit.2.getD []
  let pp := splitparams querySplit.1
  ⟨scheme, netlocRest.1, pp.1, pp.2, query, fragment⟩

/-! ## Local path mapping (src/ripper.py lines 110-122) -/

/-- `posixpath.join` restricted to the two-argument form the source
uses. -/
def os_path_join (a b : Str) : Str :=
  if b.headD ' ' = '/' then b
  else if a = [] then b
  else if a.getLast? = some '/' then a ++ b
  else a ++ '/' :: b

/-- `posixpath.splitext`: split off the extension at the last dot of
the basename, unless the basename consists only of leading dots up to
that dot. -/
def os_path_splitext (p : Str) : Str × Str :=
  match rfindSub ['.'] p with
  | none => (p, [])
  | some d =>
    match rfindSub ['/'] p with
    | none =>
      if (p.take d).any (fun c => c ≠ '.') then (p.take d, p.drop d)
      else (p, [])
    | some s2 =>
      if s2 + 1 ≤ d then
        if ((p.drop (s2 + 1)).take (d - (s2 + 1))).any (fun c => c ≠ '.') then
          (p.take d, p.drop d)
        else (p, [])
      else (p, [])

/-- `compute_local_path(output_dir, original_url, add_ext)` from the
source: URL path (with implicit `index.html` for directories) joined
under the output root, a truncated-MD5 disambiguator for a nonempty
query string, and an optional literal `.html` suffix. -/
def compute_local_path (output_dir original_url : Str)
    (add_ext : Bool) : Str :=
  let parsed := pyUrlparse original_url
  let path :=
    if parsed.path.getLast? = some '/' then parsed.path ++ "index.html".toList
    else parsed.path
  let local0 := os_path_join output_dir (path.dropWhile (fun c => c = '/'))
  let local1 :=
    if parsed.query = [] then local0
    else
      let se := os_path_splitext local0
      se.1 ++ '_' :: (md5h8 parsed.query ++ se.2)
  if add_ext then local1 ++ ".html".toList else local1

theorem md5_length (m : Bytes) : (md5 m).length = 16 := by
  simp [md5, wordBytes]

theorem flatMap_hexByte_length :
    ∀ l : Bytes, (l.flatMap hexByte).length = 2 * l.length
  | [] => rfl
  | b :: l => by
    simp [List.flatMap_cons, hexByte, flatMap_hexByte_length l]
    omega

theorem md5h8_length (q : Str) : (md5h8 q).length = 8 := by
  rw [md5h8, List.length_take, md5hex, flatMap_hexByte_length, md5_length]
  omega

/-- C2 fails as stated: the query disambiguator is an 8-hex-character
truncation of MD5, so distinct query strings can collide.  The query
strings `qed84` and `q119fd` both hash to `34b0f506`, and the two URLs
differing only in these queries map to the same local path. -/
theorem C2_counterexample :
    compute_local_path "out".toList "http://e.com/a?qed84".toList false =
        compute_local_path "out".toList "http://e.com/a?q119fd".toList false ∧
      (pyUrlparse "http://e.com/a?qed84".toList).query = "qed84".toList ∧
      (pyUrlparse "http://e.com/a?q119fd".toList).query = "q119fd".toList ∧
      ("qed84".toList : Str) ≠ "q119fd".toList := by decide

/-- C2 (amended): the mapping is a pure function of
`(output_dir, original_url, add_ext)` (determinism is immediate), and
two URLs with the same parsed path but distinct nonempty query strings
map to distinct local paths whenever the 8-hex-character truncated MD5
disambiguators of the two queries differ; full injectivity fails only
on truncated-hash collisions. -/
theorem C2_localpath_injective_amended (out u1 u2 : Str) (ae : Bool)
    (hpath : (pyUrlparse u1).path = (pyUrlparse u2).path)
    (hq1 : (pyUrlparse u1).query ≠ [])
    (hq2 : (pyUrlparse u2).query ≠ [])
    (hh : md5h8 (pyUrlparse u1).query ≠ md5h8 (pyUrlparse u2).query) :
    compute_local_path out u1 ae ≠ compute_local_path out u2 ae := by
  intro he
  apply hh
  simp only [compute_local_path, hpath, if_neg hq1, if_neg hq2] at he
  cases ae <;> simp at he <;>
    exact (List.append_inj he (by rw [md5h8_length, md5h8_length])).1

/-- C2 witness: two URLs with distinct query hashes map to distinct
paths. -/
theorem C2_witness :
    compute_local_path "out".toList "http://e.com/a?x=1".toList false ≠
      compute_local_path "out".toList "http://e.com/a?x=2".toList false :=
  C2_localpath_injective_amended _ _ _ _ (by decide) (by decide) (by decide)
    (by decide)

/-! ## Era orchestrator CDX reduction
(src/archive_ripper_batch_gui.py, `EraRipWorker._query_cdx`, lines
77-124)

Rows are the CDX JSON data rows `[timestamp, original, digest]`.  The
Python dict `url_earliest` is an insertion-ordered association list
(value update keeps the key's position, as in Python 3.7+), the set
`seen_digests` is a membership list, and the final
`result.sort(key=lambda x: x[0])` compares the first tuple component —
the URL — with Python string `<`, modelled as code-point lexicographic
comparison.  All dict keys in `result` are distinct, so a sorted
permutation is unique and the insertion sort below returns exactly the
list that Python's stable sort returns. -/

/-- Python string `<`: lexicographic by code point, a proper prefix is
smaller. -/
def pyStrLt : Str → Str → Bool
  | _, [] => false
  | [], _ :: _ => true
  | a :: xs, b :: ys =>
    if a < b then true
    else if b < a then false
    else pyStrLt xs ys

/-- Association-list lookup for the `url_earliest` dict. -/
def lookupA : List (Str × (Str × Str)) → Str → Option (Str × Str)
  | [], _ => none
  | (k', v) :: rest, k => if k' = k then some v else lookupA rest k

/-- Association-list update keeping the insertion position of an
existing key (Python 3.7+ dict semantics). -/
def updateAssoc : List (Str × (Str × Str)) → Str → Str × Str →
    List (Str × (Str × Str))
  | [], k, v => [(k, v)]
  | (k', v') :: rest, k, v =>
    if k' = k then (k, v) :: rest else (k', v') :: updateAssoc rest k v

/-- One iteration of the `for row in data[1:]` loop of `_query_cdx`. -/
def cdxStep (acc : List (Str × (Str × Str)) × List Str) (row : List Str) :
    List (Str × (Str × Str)) × List Str :=
  if row.length < 3 then acc
  else
    let timestamp := row.getD 0 []
    let original := row.getD 1 []
    let digest := row.getD 2 []
    if digest ∈ acc.2 ∧ lookupA acc.1 original = none then acc
    else
      let seen' := if digest ∈ acc.2 then acc.2 else acc.2 ++ [digest]
      match lookupA acc.1 original with
      | none => (updateAssoc acc.1 original (timestamp, digest), seen')
      | some tv =>
        if pyStrLt timestamp tv.1 then
          (updateAssoc acc.1 original (timestamp, digest), seen')
        else (acc.1, seen')

/-- Stable insertion of one entry into a list sorted by URL. -/
def insertLe (x : Str × Str) : List (Str × Str) → List (Str × Str)
  | [] => [x]
  | y :: ys =>
    if pyStrLt y.1 x.1 then y :: insertLe x ys else x :: y :: ys

/-- `result.sort(key=lambda x: x[0])`. -/
def sortByUrl (l : List (Str × Str)) : List (Str × Str) :=
  l.foldr insertLe []

/-- The pure content of `EraRipWorker._query_cdx` after the HTTP GET:
reduce the data rows to one `(original_url, earliest_timestamp)` entry
per URL, skipping rows whose digest was already claimed by a different
URL, then sort by the first tuple component. -/
def query_cdx_reduce (rows : List (List Str)) : List (Str × Str) :=
  sortByUrl ((rows.foldl cdxStep ([], [])).1.map fun kv => (kv.1, kv.2.1))

theorem pyStrLt_asymm :
    ∀ {a b : Str}, pyStrLt a b = true → pyStrLt b a = false
  | _ :: _, [], h => by simp [pyStrLt] at h
  | [], _ :: _, _ => rfl
  | a :: xs, b :: ys, h => by
    rw [pyStrLt] at h ⊢
    rcases lt_trichotomy a b with hab | hab | hab
    · rw [if_neg (lt_asymm hab), if_pos hab]
    · subst hab
      rw [if_neg (lt_irrefl a), if_neg (lt_irrefl a)] at h ⊢
      exact pyStrLt_asymm h
    · rw [if_neg (lt_asymm hab), if_pos hab] at h
      cases h

theorem pyStrLt_connex :
    ∀ {a b : Str}, pyStrLt a b = false → pyStrLt b a = false → a = b
  | [], [], _, _ => rfl
  | [], _ :: _, h, _ => by simp [pyStrLt] at h
  | _ :: _, [], _, h => by simp [pyStrLt] at h
  | a :: xs, b :: ys, h1, h2 => by
    rw [pyStrLt] at h1 h2
    rcases lt_trichotomy a b with hab | hab | hab
    · rw [if_pos hab] at h1; cases h1
    · subst hab
      rw [if_neg (lt_irrefl a), if_neg (lt_irrefl a)] at h1 h2
      rw [pyStrLt_connex h1 h2]
    · rw [if_neg (lt_asymm hab), if_pos hab] at h2; cases h2

theorem pyStrLt_trans :
    ∀ {a b c : Str}, pyStrLt a b = true → pyStrLt b c = true →
      pyStrLt a c = true
  | _, _ :: _, [], _, h2 => by simp [pyStrLt] at h2
  | _, [], _ :: _, h1, _ => by simp [pyStrLt] at h1
  | [], _ :: _, _ :: _, _, _ => rfl
  | a :: xs, b :: ys, c :: zs, h1, h2 => by
    rw [pyStrLt] at h1 h2 ⊢
    rcases lt_trichotomy a b with hab | hab | hab
    · rcases lt_trichotomy b c with hbc | hbc | hbc
      · rw [if_pos (lt_trans hab hbc)]
      · subst hbc; rw [if_pos hab]
      · rw [if_neg (lt_asymm hbc), if_pos hbc] at h2; cases h2
    · subst hab
      rcases lt_trichotomy a c with hbc | hbc | hbc
      · rw [if_pos hbc]
      · subst hbc
        rw [if_neg (lt_irrefl a)] at h1 h2 ⊢
        rw [if_neg (lt_irrefl a)] at h1 h2 ⊢
        exact pyStrLt_trans h1 h2
      · rw [if_neg (lt_asymm hbc), if_pos hbc] at h2; cases h2
    · rw [if_neg (lt_asymm hab), if_pos hab] at h1; cases h1

/-- From `¬ (z < y)` and `¬ (y < x)` conclude `¬ (z < x)`. -/
theorem pyStrLt_nlt_trans {x y z : Str} (h1 : pyStrLt z y = false)
    (h2 : pyStrLt y x = false) : pyStrLt z x = false := by
  cases hzx : pyStrLt z x with
  | false => rfl
  | true =>
    cases hyz : pyStrLt y z with
    | false =>
      cases hzy : pyStrLt z y with
      | false =>
        have := pyStrLt_connex hzy hyz
        subst this
        rw [hzx] at h2
        cases h2
      | true => rw [hzy] at h1; cases h1
    | true =>
      have := pyStrLt_trans hyz hzx
      rw [this] at h2
      cases h2

theorem mem_insertLe {x z : Str × Str} :
    ∀ {l : List (Str × Str)}, z ∈ insertLe x l → z = x ∨ z ∈ l := by
  intro l
  induction l with
  | nil => intro h; simpa [insertLe] using h
  | cons y ys ih =>
    intro h
    rw [insertLe] at h
    split at h
    · rcases List.mem_cons.mp h with h | h
      · exact Or.inr (h ▸ List.mem_cons_self y ys)
      · rcases ih h with h | h
        · exact Or.inl h
        · exact Or.inr (List.mem_cons_of_mem y h)
    · rcases List.mem_cons.mp h with h | h
      · exact Or.inl h
      · exact Or.inr h

theorem insertLe_pairwise (x : Str × Str) :
    ∀ {l : List (Str × Str)},
      l.Pairwise (fun a b => pyStrLt b.1 a.1 = false) →
      (insertLe x l).Pairwise (fun a b => pyStrLt b.1 a.1 = false) := by
  intro l
  induction l with
  | nil => intro _; simp [insertLe]
  | cons y ys ih =>
    intro h
    rw [List.pairwise_cons] at h
    rw [insertLe]
    split
    · rename_i hyx
      rw [List.pairwise_cons]
      refine ⟨?_, ih h.2⟩
      intro z hz
      rcases mem_insertLe hz with hz | hz
      · subst hz
        exact pyStrLt_asymm hyx
      · exact h.1 z hz
    · rename_i hyx
      rw [List.pairwise_cons]
      refine ⟨?_, List.pairwise_cons.mpr h⟩
      intro z hz
      rcases List.mem_cons.mp hz with hz | hz
      · subst hz
        exact Bool.eq_false_iff.mpr fun hc => hyx (by rw [hc])
      · exact pyStrLt_nlt_trans (h.1 z hz)
          (Bool.eq_false_iff.mpr fun hc => hyx (by rw [hc]))

theorem sortByUrl_pairwise (l : List (Str × Str)) :
    (sortByUrl l).Pairwise (fun a b => pyStrLt b.1 a.1 = false) := by
  rw [sortByUrl]
  induction l with
  | nil => simp
  | cons x xs ih => exact insertLe_pairwise x ih

/-- C3: on the CDX rows `[(3,A,X), (1,A,X), (2,B,X)]` the reduction
returns exactly one entry, URL `A` at its earliest timestamp `1`; URL
`B` is dropped because digest `X` is already claimed. -/
theorem C3_era_dedup :
    query_cdx_reduce
        [["3".toList, "A".toList, "X".toList],
         ["1".toList, "A".toList, "X".toList],
         ["2".toList, "B".toList, "X".toList]] =
      [("A".toList, "1".toList)] := by decide

/-- C4 fails as stated: `result.sort(key=lambda x: x[0])` sorts the
`(url, timestamp)` tuples by URL, not by timestamp.  With rows
`[(1,b,Y), (2,a,X)]` the returned list is `[(a,2), (b,1)]`, whose
timestamp components decrease. -/
theorem C4_counterexample :
    ¬ (query_cdx_reduce
          [["1".toList, "b".toList, "Y".toList],
           ["2".toList, "a".toList, "X".toList]]).Pairwise
        (fun a b => pyStrLt b.2 a.2 = false) := by decide

/-- C4 (amended): after per-URL reduction the era orchestrator sorts
the entries in non-decreasing order of their URL component (the first
tuple component), not of their timestamps; the download loop then
consumes them in that order. -/
theorem C4_sorted_by_url_amended (rows : List (List Str)) :
    (query_cdx_reduce rows).Pairwise
      (fun a b => pyStrLt b.1 a.1 = false) := by
  rw [query_cdx_reduce]
  exact sortByUrl_pairwise _

/-! ## Constants and small path helpers (src/ripper.py lines 22-43,
125-136) -/

/-- `MAX_RETRIES` from the source. -/
def MAX_RETRIES : Nat := 3

/-- `MAX_CONCURRENCY` from the source. -/
def MAX_CONCURRENCY : Nat := 3

/-- `TEXT_EXTS` from the source. -/
def TEXT_EXTS : List Str :=
  [".css".toList, ".js".toList, ".html".toList, ".htm".toList,
   ".svg".toList, ".json".toList, ".xml".toList, ".txt".toList,
   ".php".toList, ".asp".toList, ".aspx".toList, ".jsp".toList,
   ".cgi".toList]

/-- The raw-mode extensions of `process_asset` (line 1358). -/
def RAW_EXTS : List Str :=
  [".css".toList, ".js".toList, ".html".toList, ".htm".toList]

/-- The prefixes stripped by `clean_rel_path`, in source order. -/
def crpPrefixes : List Str :=
  ["../".toList, "..\\".toList, "./".toList, ".\\".toList,
   ".".toList, "\\".toList]

/-- One pass of `clean_rel_path`'s `for p in prefixes` loop: strip each
matching leading token in order, reporting whether anything changed. -/
def crpPass (path : Str) : Str × Bool :=
  crpPrefixes.foldl
    (fun acc p =>
      if p.isPrefixOf acc.1 then (acc.1.drop p.length, true) else acc)
    (path, false)

/-- The `while changed` loop of `clean_rel_path`; every changed pass
strips at least one character, so `length + 1` passes always suffice. -/
def crpLoop : Nat → Str → Str
  | 0, path => path
  | fuel + 1, path =>
    let r := crpPass path
    if r.2 then crpLoop fuel r.1 else r.1

/-- `clean_rel_path(path)` from the source: repeatedly strip leading
relative-path tokens, strip leading slashes and backslashes, and turn
backslashes into forward slashes. -/
def clean_rel_path (path : Str) : Str :=
  ((crpLoop (path.length + 1) path).dropWhile
      (fun c => c = '/' ∨ c = '\\')).map
    (fun c => if c = '\\' then '/' else c)

/-- Split a path at every `/` (keeping empty segments). -/
def splitSlash : Str → List Str
  | [] => [[]]
  | c :: t =>
    if c = '/' then [] :: splitSlash t
    else
      match splitSlash t with
      | h :: r => (c :: h) :: r
      | [] => [[c]]

/-- Nonempty segments of a path, as in `posixpath.relpath`'s
`[x for x in path.split(sep) if x]`. -/
def relSegs (p : Str) : List Str := (splitSlash p).filter (fun s => s ≠ [])

/-- Join segments with `/`. -/
def joinSegs : List Str → Str
  | [] => []
  | [s] => s
  | s :: rest => s ++ '/' :: joinSegs rest

/-- Length of the common prefix of two segment lists. -/
def commonLen : List Str → List Str → Nat
  | x :: xs, y :: ys => if x = y then commonLen xs ys + 1 else 0
  | _, _ => 0

/-- `posixpath.relpath(path, start)` for inputs that are already
normalized paths relative to one working directory (the source only
ever passes paths built under the output root, where the `abspath`
normalization inside CPython's `relpath` cancels out). -/
def os_path_relpath (path start : Str) : Str :=
  let pl := relSegs path
  let sl := relSegs start
  let i := commonLen sl pl
  let rel := List.replicate (sl.length - i) "..".toList ++ pl.drop i
  if rel = [] then ".".toList else joinSegs rel

/-! ## The asset pipeline `process_asset` (src/ripper.py lines
1333-1437)

`process_asset` is embedded as a state-passing function.  The state
carries the in-memory dedup set `downloaded`, the queue of outcomes of
successive `fetch_url` calls (`none` models `fetch_url` raising after
its own retries), and a chronological event trace.  The environment
supplies: `disk` (`os.path.exists`, sampled per check; the code never
re-checks a path it has written in the same call), `nearest`
(`find_nearest_snapshot`, whose own try/except collapses lookup
failure and empty results into `None`), `corrupt` (what the filesystem
actually holds when the written bytes are re-read in the verify loop),
and `textStep`, an oracle for lines 1379-1417 — decode,
`strip_archive_comments`, `detect_file_type` and the recursive
HTML/CSS/JS rewriters, which may re-enter `process_asset` and so
cannot be embedded as a terminating Lean function; it either returns
the nested page path (the `ftype == html` early return) or the
transformed bytes that continue to the persist loop. -/

/-- Observable events of one `process_asset` run. -/
inductive Ev where
  | ledgerCheck (url : Str)
  | fsCheck (p : Str)
  | fetchCall (u : Str)
  | cdxLookup (u ts : Str)
  | save (p : Str) (d : Bytes)
  | marked (u : Str)
deriving DecidableEq

/-- Mutable state threaded through `process_asset`. -/
structure St where
  downloaded : List Str
  fetchQueue : List (Option Bytes)
  events : List Ev
deriving DecidableEq

/-- Result of the text-processing block (lines 1379-1417). -/
inductive TextOut where
  | retHtml (p : Str) (st : St)
  | cont (d : Bytes) (st : St)

/-- Collaborator behaviour for one `process_asset` run. -/
structure Env where
  disk : Str → Bool
  nearest : Str → Str → Option Str
  corrupt : Nat → Bytes → Bytes
  textStep : Bytes → St → TextOut

/-- Append one event. -/
def logEv (e : Ev) (st : St) : St := { st with events := st.events ++ [e] }

/-- `fetch_url(u)`: consume the next queued network outcome. -/
def fetch_url (u : Str) (st : St) : Option Bytes × St :=
  match st.fetchQueue with
  | [] => (none, logEv (.fetchCall u) st)
  | r :: rest => (r, logEv (.fetchCall u) { st with fetchQueue := rest })

/-- `mark_downloaded(output_dir, url, lock, downloaded)`: under the
lock, no-op when present, else add to the set and append to the side
file (the file append is the `marked` event). -/
def mark_downloaded (url : Str) (st : St) : St :=
  if url ∈ st.downloaded then st
  else { st with downloaded := st.downloaded ++ [url],
                 events := st.events ++ [.marked url] }

/-- `range(1, MAX_RETRIES + 1)`. -/
def attemptList : List Nat := List.range' 1 MAX_RETRIES

/-- The write-then-verify loop of `process_asset` (lines 1419-1434):
save, hash-compare the re-read content, break on match or on the last
attempt, otherwise re-fetch and retry; a failing re-fetch breaks. -/
def persistLoop (env : Env) (archive_url local_path : Str) :
    List Nat → Bytes → St → Bytes × St
  | [], data, st => (data, st)
  | attempt :: rest, data, st =>
    let st1 := logEv (.save local_path data) st
    if md5hex data = md5hex (env.corrupt attempt data) then (data, st1)
    else if attempt = MAX_RETRIES then (data, st1)
    else
      match fetch_url archive_url st1 with
      | (none, st2) => (data, st2)
      | (some d2, st2) => persistLoop env archive_url local_path rest d2 st2

/-- Lines 1419-1437: run the verify loop, mark the ledger, return the
cleaned relative path. -/
def persistFinish (env : Env) (archive_url local_path original page_dir : Str)
    (data : Bytes) (st : St) : Str × St :=
  (clean_rel_path (os_path_relpath local_path page_dir),
   mark_downloaded original
     (persistLoop env archive_url local_path attemptList data st).2)

/-- Lines 1376-1437: text detection and transformation (through the
`textStep` oracle), then persistence. -/
def afterFetch (env : Env) (original page_dir : Str)
    (archive_url local_path : Str) (data : Bytes) (st : St) : Str × St :=
  let ext := (os_path_splitext (pyUrlparse original).path).2.map Char.toLower
  if ext ∈ TEXT_EXTS ∨ ¬ (0 ∈ data) then
    match env.textStep data st with
    | .retHtml local_html st2 =>
      (clean_rel_path (os_path_relpath local_html page_dir),
       mark_downloaded original st2)
    | .cont d2 st2 =>
      persistFinish env archive_url local_path original page_dir d2 st2
  else persistFinish env archive_url local_path original page_dir data st

/-- `process_asset(asset_url, page_dir, output_dir, asset_timestamp,
downloaded, lock, concurrency)` (lines 1333-1437). -/
def process_asset (env : Env)
    (asset_url page_dir output_dir asset_timestamp : Str) (st : St) :
    Str × St :=
  let original := asset_url
  let local_path := compute_local_path output_dir original false
  let html_path := compute_local_path output_dir original true
  let st1 := logEv (.ledgerCheck original) st
  if original ∈ st1.downloaded then
    let st2 := logEv (.fsCheck html_path) st1
    let final := if env.disk html_path then html_path else local_path
    (clean_rel_path (os_path_relpath final page_dir), st2)
  else
    let st2 := logEv (.fsCheck html_path) st1
    if env.disk html_path then
      (clean_rel_path (os_path_relpath html_path page_dir),
       mark_downloaded original st2)
    else
      let st3 := logEv (.fsCheck local_path) st2
      if env.disk local_path then
        (clean_rel_path (os_path_relpath local_path page_dir),
         mark_downloaded original st3)
      else
        let ext :=
          (os_path_splitext (pyUrlparse original).path).2.map Char.toLower
        let raw := ext ∈ RAW_EXTS ∨ ext = []
        let archive_url := make_archive_url asset_timestamp original raw
        match fetch_url archive_url st3 with
        | (some data, st4) =>
          afterFetch env original page_dir archive_url local_path data st4
        | (none, st4) =>
          let st5 := logEv (.cdxLookup original asset_timestamp) st4
          match env.nearest original asset_timestamp with
          | some nearest =>
            if nearest ≠ [] ∧ nearest ≠ asset_timestamp then
              let archive_url2 := make_archive_url nearest original raw
              match fetch_url archive_url2 st5 with
              | (some data, st6) =>
                afterFetch env original page_dir archive_url2 local_path
                  data st6
              | (none, st6) => (asset_url, st6)
            else (asset_url, st5)
          | none => (asset_url, st5)

/-- Number of `save` events in a trace. -/
def savesIn (evs : List Ev) : Nat :=
  evs.countP (fun e => match e with | .save _ _ => true | _ => false)

/-- Network events: `fetch_url` calls and CDX lookups. -/
def netEv : Ev → Bool
  | .fetchCall _ => true
  | .cdxLookup _ _ => true
  | _ => false

theorem logEv_downloaded (e : Ev) (st : St) :
    (logEv e st).downloaded = st.downloaded := rfl

theorem logEv_fetchQueue (e : Ev) (st : St) :
    (logEv e st).fetchQueue = st.fetchQueue := rfl

theorem logEv_events (e : Ev) (st : St) :
    (logEv e st).events = st.events ++ [e] := rfl

theorem mark_downloaded_mem (url : Str) (st : St) :
    url ∈ (mark_downloaded url st).downloaded := by
  rw [mark_downloaded]
  split
  · assumption
  · simp

theorem savesIn_append (a b : List Ev) :
    savesIn (a ++ b) = savesIn a + savesIn b := by
  simp [savesIn, List.countP_append]

theorem savesIn_save (p : Str) (d : Bytes) : savesIn [Ev.save p d] = 1 := rfl

theorem savesIn_notSave (e : Ev) (h : ∀ p d, e ≠ Ev.save p d) :
    savesIn [e] = 0 := by
  cases e <;> first | rfl | exact absurd rfl (h _ _)

theorem mark_downloaded_savesIn (url : Str) (st : St) :
    savesIn (mark_downloaded url st).events = savesIn st.events := by
  rw [mark_downloaded]
  split
  · rfl
  · show savesIn (st.events ++ [Ev.marked url]) = savesIn st.events
    rw [savesIn_append, savesIn_notSave _ (by intro p d h; cases h)]
    omega

theorem fetch_url_downloaded (u : Str) (st : St) :
    (fetch_url u st).2.downloaded = st.downloaded := by
  rw [fetch_url]
  cases st.fetchQueue <;> rfl

theorem fetch_url_savesIn (u : Str) (st : St) :
    savesIn (fetch_url u st).2.events = savesIn st.events := by
  rw [fetch_url]
  cases st.fetchQueue <;>
    · show savesIn (st.events ++ [Ev.fetchCall u]) = savesIn st.events
      rw [savesIn_append, savesIn_notSave _ (by intro p d h; cases h)]
      omega

theorem persistLoop_spec (env : Env) (au lp : Str) :
    ∀ (l : List Nat) (d : Bytes) (st : St),
      (persistLoop env au lp l d st).2.downloaded = st.downloaded ∧
      savesIn (persistLoop env au lp l d st).2.events ≤
        savesIn st.events + l.length := by
  intro l
  induction l with
  | nil => exact fun d st => ⟨rfl, Nat.le_add_right _ _⟩
  | cons a rest ih =>
    intro d st
    rw [persistLoop]
    have hsave : savesIn (logEv (Ev.save lp d) st).events =
        savesIn st.events + 1 := by
      rw [logEv_events, savesIn_append, savesIn_save]
    split
    · exact ⟨rfl, by rw [hsave, List.length_cons]; omega⟩
    · split
      · exact ⟨rfl, by rw [hsave, List.length_cons]; omega⟩
      · split
        · rename_i st2 heq
          have h2 : (fetch_url au (logEv (Ev.save lp d) st)).2 = st2 := by
            rw [heq]
          constructor
          · rw [← h2, fetch_url_downloaded]
            rfl
          · rw [← h2, fetch_url_savesIn, hsave, List.length_cons]
            omega
        · rename_i d2 st2 heq
          have h2 : (fetch_url au (logEv (Ev.save lp d) st)).2 = st2 := by
            rw [heq]
          obtain ⟨ihd, ihs⟩ := ih d2 st2
          constructor
          · rw [ihd, ← h2, fetch_url_downloaded]
            rfl
          · refine le_trans ihs ?_
            rw [← h2, fetch_url_savesIn, hsave, List.length_cons]
            omega

theorem persistFinish_fst (env : Env) (au lp orig pg : Str) (d : Bytes)
    (st : St) :
    (persistFinish env au lp orig pg d st).1 =
      clean_rel_path (os_path_relpath lp pg) := by
  unfold persistFinish
  simp

theorem persistFinish_snd (env : Env) (au lp orig pg : Str) (d : Bytes)
    (st : St) :
    (persistFinish env au lp orig pg d st).2 =
      mark_downloaded orig (persistLoop env au lp attemptList d st).2 := by
  unfold persistFinish
  simp

theorem savesIn_ledgerCheck (u : Str) : savesIn [Ev.ledgerCheck u] = 0 := rfl

theorem savesIn_fsCheck (p : Str) : savesIn [Ev.fsCheck p] = 0 := rfl

theorem savesIn_fetchCall (u : Str) : savesIn [Ev.fetchCall u] = 0 := rfl

theorem savesIn_cdxLookup (u t : Str) : savesIn [Ev.cdxLookup u t] = 0 := rfl

theorem savesIn_marked (u : Str) : savesIn [Ev.marked u] = 0 := rfl

/-- C5: when the persist loop is reached (here: a binary asset whose
primary fetch succeeded), `process_asset` always terminates normally,
regardless of how the written bytes read back — in particular when the
post-write hash never matches within the retry bound: it performs at
most `MAX_RETRIES` saves, keeps the last-written content (nothing is
ever deleted), still marks the asset in the ledger, and still returns
the cleaned relative path. -/
theorem C5_integrity_mismatch_tolerated (env : Env)
    (url page out ts : Str) (st : St) (d : Bytes)
    (h1 : url ∉ st.downloaded)
    (h2 : env.disk (compute_local_path out url true) = false)
    (h3 : env.disk (compute_local_path out url false) = false)
    (h4 : st.fetchQueue.head? = some (some d))
    (h5 : (os_path_splitext (pyUrlparse url).path).2.map Char.toLower ∉
      TEXT_EXTS)
    (h6 : 0 ∈ d) :
    (process_asset env url page out ts st).1 =
        clean_rel_path
          (os_path_relpath (compute_local_path out url false) page) ∧
      url ∈ (process_asset env url page out ts st).2.downloaded ∧
      savesIn (process_asset env url page out ts st).2.events ≤
        savesIn st.events + MAX_RETRIES := by
  obtain ⟨rest, hq⟩ : ∃ rest, st.fetchQueue = some d :: rest := by
    cases hqq : st.fetchQueue with
    | nil => rw [hqq] at h4; cases h4
    | cons r rest =>
      rw [hqq] at h4
      injection h4 with h4
      exact ⟨rest, by rw [h4]⟩
  simp only [process_asset, logEv_downloaded, logEv_fetchQueue, logEv_events,
    h1, h2, h3, hq, fetch_url, afterFetch,
    Bool.false_eq_true, if_false, false_or]
  rw [if_neg (fun hor => hor.elim h5 fun hn => hn h6)]
  rw [persistFinish_fst, persistFinish_snd]
  refine ⟨rfl, mark_downloaded_mem _ _, ?_⟩
  rw [mark_downloaded_savesIn]
  refine le_trans (persistLoop_spec env _ _ attemptList d _).2 ?_
  have hlen : attemptList.length = MAX_RETRIES := rfl
  rw [hlen]
  simp only [logEv_events, logEv_fetchQueue, logEv_downloaded, savesIn_append,
    savesIn_ledgerCheck, savesIn_fsCheck, savesIn_fetchCall]
  omega

/-- C5 witness: a binary asset whose writes always read back corrupted
(every re-read yields `1 :: d`, never hash-matching) still resolves
normally, is marked, and stays within the retry bound. -/
theorem C5_witness :
    (process_asset
          ⟨fun _ => false, fun _ _ => none, fun _ d => 1 :: d,
            fun d st => TextOut.cont d st⟩
          "http://e.com/img.png".toList "out".toList "out".toList
          "20150101000000".toList ⟨[], [some [0]], []⟩).1 =
        clean_rel_path
          (os_path_relpath
            (compute_local_path "out".toList "http://e.com/img.png".toList
              false) "out".toList) ∧
      "http://e.com/img.png".toList ∈
        (process_asset
            ⟨fun _ => false, fun _ _ => none, fun _ d => 1 :: d,
              fun d st => TextOut.cont d st⟩
            "http://e.com/img.png".toList "out".toList "out".toList
            "20150101000000".toList ⟨[], [some [0]], []⟩).2.downloaded ∧
      savesIn
          (process_asset
              ⟨fun _ => false, fun _ _ => none, fun _ d => 1 :: d,
                fun d st => TextOut.cont d st⟩
              "http://e.com/img.png".toList "out".toList "out".toList
              "20150101000000".toList ⟨[], [some [0]], []⟩).2.events ≤
        savesIn ([] : List Ev) + MAX_RETRIES :=
  C5_integrity_mismatch_tolerated _ _ _ _ _ _ [0] (by decide) (by decide)
    (by decide) (by decide) (by decide) (by decide)

/-- C6: when the primary fetch fails and the nearest-snapshot fallback
is unusable (lookup failed or empty, same timestamp, or the retry at
the different timestamp also fails), `process_asset` returns the
asset's original URL verbatim and terminates normally. -/
theorem C6_fallback_returns_original (env : Env) (url page out ts : Str)
    (st : St)
    (h1 : url ∉ st.downloaded)
    (h2 : env.disk (compute_local_path out url true) = false)
    (h3 : env.disk (compute_local_path out url false) = false)
    (h4 : st.fetchQueue.head? = some none)
    (h5 : env.nearest url ts = none ∨ env.nearest url ts = some [] ∨
      env.nearest url ts = some ts ∨
      (∃ t2, env.nearest url ts = some t2 ∧ t2 ≠ [] ∧ t2 ≠ ts ∧
        (st.fetchQueue.drop 1).head? = some none)) :
    (process_asset env url page out ts st).1 = url := by
  obtain ⟨rest, hq⟩ : ∃ rest, st.fetchQueue = none :: rest := by
    cases hqq : st.fetchQueue with
    | nil => rw [hqq] at h4; cases h4
    | cons r rest =>
      rw [hqq] at h4
      injection h4 with h4
      exact ⟨rest, by rw [h4]⟩
  simp only [process_asset, logEv_downloaded, logEv_fetchQueue, logEv_events,
    h1, h2, h3, hq, fetch_url, Bool.false_eq_true, if_false, false_or]
  rcases h5 with hn | hn | hn | ⟨t2, hn, ht2e, ht2ts, hrest⟩
  · simp only [hn]
  · simp only [hn]
    rw [if_neg (fun hc => hc.1 rfl)]
  · simp only [hn]
    rw [if_neg (fun hc => hc.2 rfl)]
  · obtain ⟨rest2, hr2⟩ : ∃ rest2, rest = none :: rest2 := by
      rw [hq] at hrest
      cases hrr : rest with
      | nil => rw [hrr] at hrest; cases hrest
      | cons r rest2 =>
        rw [hrr] at hrest
        injection hrest with hrest
        exact ⟨rest2, by rw [hrest]⟩
    simp only [hn, hr2, fetch_url, logEv_fetchQueue]
    rw [if_pos ⟨ht2e, ht2ts⟩]

/-- C6 witness: concrete failed fetch with a failed CDX lookup yields
the original URL. -/
theorem C6_witness :
    (process_asset
        ⟨fun _ => false, fun _ _ => none, fun _ d => d,
          fun d st => TextOut.cont d st⟩
        "http://e.com/a.png".toList "out".toList "out".toList
        "2015".toList ⟨[], [none], []⟩).1 = "http://e.com/a.png".toList :=
  C6_fallback_returns_original _ _ _ _ _ _ (by decide) (by decide)
    (by decide) (by decide) (Or.inl rfl)

/-- C8 fails as stated: the source consults the in-memory dedup ledger
(`original in downloaded`, line 1345) before any existence-on-disk
check.  On a run with an empty ledger and the asset's file already on
disk, the very first observable event is the ledger consult, and the
disk check only follows it. -/
theorem C8_counterexample :
    ((process_asset
          ⟨fun p =>
              p ==
                compute_local_path "out".toList
                  "http://e.com/img.png".toList false,
            fun _ _ => none, fun _ d => d, fun d st => TextOut.cont d st⟩
          "http://e.com/img.png".toList "out".toList "out".toList
          "2015".toList ⟨[], [], []⟩).2.events.head? =
        some (Ev.ledgerCheck "http://e.com/img.png".toList)) ∧
      Ev.fsCheck
          (compute_local_path "out".toList "http://e.com/img.png".toList
            false) ∈
        (process_asset
            ⟨fun p =>
                p ==
                  compute_local_path "out".toList
                    "http://e.com/img.png".toList false,
              fun _ _ => none, fun _ d => d, fun d st => TextOut.cont d st⟩
            "http://e.com/img.png".toList "out".toList "out".toList
            "2015".toList ⟨[], [], []⟩).2.events := by decide

/-- C8 (amended): the ledger membership test comes first, then the
on-disk existence checks; for an asset already in the ledger or already
materialized on disk, `process_asset` performs no network activity at
all (no `fetch_url` call and no CDX lookup). -/
theorem C8_no_fetch_when_cached_amended (env : Env) (url page out ts : Str)
    (st : St) (h0 : st.events = [])
    (h : url ∈ st.downloaded ∨
      env.disk (compute_local_path out url true) = true ∨
      env.disk (compute_local_path out url false) = true) :
    (process_asset env url page out ts st).2.events.head? =
        some (Ev.ledgerCheck url) ∧
      ∀ e ∈ (process_asset env url page out ts st).2.events,
        netEv e = false := by
  by_cases hmem : url ∈ st.downloaded
  · simp only [process_asset, logEv_downloaded, logEv_fetchQueue,
      logEv_events, hmem, if_true, h0, List.nil_append]
    refine ⟨rfl, ?_⟩
    intro e he
    simp only [List.singleton_append, List.cons_append, List.nil_append,
      List.mem_cons, List.not_mem_nil, or_false] at he
    rcases he with rfl | rfl <;> rfl
  · have hmark : ∀ s2 : St, url ∉ s2.downloaded →
        (mark_downloaded url s2).events = s2.events ++ [Ev.marked url] := by
      intro s2 hs2
      rw [mark_downloaded, if_neg hs2]
    by_cases hdh : env.disk (compute_local_path out url true) = true
    · simp only [process_asset, logEv_downloaded, logEv_fetchQueue,
        logEv_events, hmem, if_false, hdh, if_true]
      rw [hmark _ (by simp only [logEv_downloaded]; exact hmem)]
      simp only [logEv_events, h0, List.nil_append, List.cons_append,
        List.nil_append]
      refine ⟨rfl, ?_⟩
      intro e he
      simp only [List.singleton_append, List.cons_append, List.nil_append,
      List.mem_cons, List.not_mem_nil, or_false] at he
      rcases he with rfl | rfl | rfl <;> rfl
    · have hdl : env.disk (compute_local_path out url false) = true := by
        rcases h with h | h | h
        · exact absurd h hmem
        · exact absurd h hdh
        · exact h
      simp only [process_asset, logEv_downloaded, logEv_fetchQueue,
        logEv_events, hmem, if_false, hdh, hdl, if_true,
        Bool.false_eq_true]
      rw [hmark _ (by simp only [logEv_downloaded]; exact hmem)]
      simp only [logEv_events, h0, List.nil_append, List.cons_append,
        List.nil_append]
      refine ⟨rfl, ?_⟩
      intro e he
      simp only [List.singleton_append, List.cons_append, List.nil_append,
      List.mem_cons, List.not_mem_nil, or_false] at he
      rcases he with rfl | rfl | rfl | rfl <;> rfl

/-- C8 witness: an asset already in the ledger triggers the ledger
consult first and causes no network event. -/
theorem C8_witness :
    (process_asset
          ⟨fun _ => false, fun _ _ => none, fun _ d => d,
            fun d st => TextOut.cont d st⟩
          "http://e.com/b.png".toList "out".toList "out".toList
          "2015".toList
          ⟨["http://e.com/b.png".toList], [], []⟩).2.events.head? =
        some (Ev.ledgerCheck "http://e.com/b.png".toList) ∧
      ∀ e ∈ (process_asset
            ⟨fun _ => false, fun _ _ => none, fun _ d => d,
              fun d st => TextOut.cont d st⟩
            "http://e.com/b.png".toList "out".toList "out".toList
            "2015".toList
            ⟨["http://e.com/b.png".toList], [], []⟩).2.events,
        netEv e = false :=
  C8_no_fetch_when_cached_amended _ _ _ _ _ _ rfl
    (Or.inl (by decide))

/-! ## Concurrency cap (src/ripper.py lines 1551, 1613-1630, 1653-1669)

`main` computes `conc = min(args.concurrency, MAX_CONCURRENCY)` and
passes it to `download_page`, which forwards its `concurrency` argument
unchanged to `process_html`, where it becomes `max_workers` of the
`ThreadPoolExecutor`.  Worker counts are modelled as naturals. -/

/-- `conc = min(args.concurrency, MAX_CONCURRENCY)` from `main`. -/
def main_effective_concurrency (requested : Nat) : Nat :=
  min requested MAX_CONCURRENCY

/-- `download_page` passes `concurrency` through to `process_html`'s
`ThreadPoolExecutor(max_workers=concurrency)` without modification. -/
def download_page_pool_workers (concurrency : Nat) : Nat := concurrency

/-- C7: mirroring a page through the program's entry point runs the
asset worker pool with `min(requested, 3)` workers, hence never more
than 3, regardless of a higher requested value. -/
theorem C7_concurrency_cap (requested : Nat) :
    download_page_pool_workers (main_effective_concurrency requested) =
        min requested 3 ∧
      download_page_pool_workers (main_effective_concurrency requested) ≤
        3 := by
  refine ⟨rfl, ?_⟩
  exact Nat.min_le_right _ _


/-! ## Output-root confinement of the local path mapping (C10)

`compute_local_path` joins the URL path under the output root by string
concatenation and never normalizes `..` segments, so confinement is a
statement about the resolved segment list of the produced path. -/

/-- One step of operating-system path resolution: `.` and empty
segments vanish, `..` pops the previous segment (or accumulates at the
front of a relative path), anything else is pushed. -/
def resolveStep (stack : List Str) (seg : Str) : List Str :=
  if seg = [] ∨ seg = ".".toList then stack
  else if seg = "..".toList then
    match stack.getLast? with
    | some lastSeg =>
      if lastSeg = "..".toList then stack ++ [seg] else stack.dropLast
    | none => [seg]
  else stack ++ [seg]

/-- Resolved segment list of a relative path. -/
def resolveSegs (p : Str) : List Str := (splitSlash p).foldl resolveStep []

/-- The path `p`, resolved as the operating system resolves it when the
file is opened, stays inside the directory `out`. -/
def confined (out p : Str) : Prop := (resolveSegs p).head? = some out

instance (out p : Str) : Decidable (confined out p) :=
  inferInstanceAs (Decidable ((resolveSegs p).head? = some out))

theorem splitSlash_ne_nil : ∀ p : Str, splitSlash p ≠ []
  | [] => by simp [splitSlash]
  | c :: t => by
    rw [splitSlash]
    split
    · simp
    · split <;> simp

theorem splitSlash_slash_cons (t : Str) :
    splitSlash ('/' :: t) = [] :: splitSlash t := by
  rw [splitSlash]
  simp

theorem splitSlash_cons_ne (c : Char) (t : Str) (hc : ¬ c = '/')
    (h : Str) (r : List Str) (ht : splitSlash t = h :: r) :
    splitSlash (c :: t) = (c :: h) :: r := by
  rw [splitSlash, if_neg hc, ht]

theorem splitSlash_append (b : Str) :
    ∀ a : Str, splitSlash (a ++ '/' :: b) = splitSlash a ++ splitSlash b
  | [] => by
    rw [List.nil_append, splitSlash_slash_cons]
    rfl
  | c :: t => by
    by_cases hc : c = '/'
    · subst hc
      rw [List.cons_append, splitSlash_slash_cons, splitSlash_slash_cons,
        splitSlash_append b t]
      rfl
    · obtain ⟨h, r, ht⟩ : ∃ h r, splitSlash t = h :: r := by
        cases hst : splitSlash t with
        | nil => exact absurd hst (splitSlash_ne_nil t)
        | cons h r => exact ⟨h, r, rfl⟩
      have h1 : splitSlash (t ++ '/' :: b) = h :: (r ++ splitSlash b) := by
        rw [splitSlash_append b t, ht]
        rfl
      rw [List.cons_append, splitSlash_cons_ne c _ hc _ _ h1,
        splitSlash_cons_ne c t hc h r ht]
      rfl

/-- Apply `f` to the last segment only. -/
def modifyLastSeg (f : Str → Str) : List Str → List Str
  | [] => []
  | [s] => [f s]
  | s :: t :: r => s :: modifyLastSeg f (t :: r)

theorem modifyLastSeg_cons (f : Str → Str) (x : Str) (l : List Str)
    (hl : l ≠ []) : modifyLastSeg f (x :: l) = x :: modifyLastSeg f l := by
  cases l with
  | nil => exact absurd rfl hl
  | cons y ys => rfl

theorem modifyLastSeg_ne_nil (f : Str → Str) (l : List Str) (hl : l ≠ []) :
    modifyLastSeg f l ≠ [] := by
  cases l with
  | nil => exact absurd rfl hl
  | cons y ys => cases ys <;> simp [modifyLastSeg]

theorem modifyLastSeg_dropLast (f : Str → Str) :
    ∀ l : List Str, (modifyLastSeg f l).dropLast = l.dropLast
  | [] => rfl
  | [s] => rfl
  | s :: t :: r => by
    rw [modifyLastSeg]
    cases hm : modifyLastSeg f (t :: r) with
    | nil => exact absurd hm (modifyLastSeg_ne_nil f (t :: r) (by simp))
    | cons y ys =>
      have ih := modifyLastSeg_dropLast f (t :: r)
      rw [hm] at ih
      calc (s :: y :: ys).dropLast = s :: (y :: ys).dropLast := rfl
        _ = s :: (t :: r).dropLast := by rw [ih]
        _ = (s :: t :: r).dropLast := rfl

theorem mem_modifyLastSeg {P : Str → Prop} (f : Str → Str) :
    ∀ l : List Str, (∀ x ∈ l.dropLast, P x) → (∀ x, P (f x)) →
      ∀ seg ∈ modifyLastSeg f l, P seg
  | [], _, _, seg, hseg => by simp [modifyLastSeg] at hseg
  | [s], _, hf, seg, hseg => by
    simp [modifyLastSeg] at hseg
    exact hseg ▸ hf s
  | s :: t :: r, hd, hf, seg, hseg => by
    rw [modifyLastSeg] at hseg
    have hdl : (s :: t :: r).dropLast = s :: (t :: r).dropLast := rfl
    rcases List.mem_cons.mp hseg with rfl | hseg
    · exact hd seg (by rw [hdl]; exact List.mem_cons_self _ _)
    · exact mem_modifyLastSeg f (t :: r)
        (fun x hx => hd x (by rw [hdl]; exact List.mem_cons_of_mem _ hx))
        hf seg hseg

theorem splitSlash_noSlash :
    ∀ s : Str, (∀ c ∈ s, c ≠ '/') → splitSlash s = [s]
  | [], _ => rfl
  | c :: t, h => by
    rw [splitSlash, if_neg (h c (List.mem_cons_self c t)),
      splitSlash_noSlash t (fun x hx => h x (List.mem_cons_of_mem c hx))]

theorem splitSlash_append_noSlash (s : Str) (hs : ∀ c ∈ s, c ≠ '/') :
    ∀ a : Str, splitSlash (a ++ s) =
      modifyLastSeg (fun x => x ++ s) (splitSlash a)
  | [] => by
    rw [List.nil_append, splitSlash_noSlash s hs]
    rfl
  | c :: t => by
    by_cases hc : c = '/'
    · subst hc
      rw [List.cons_append, splitSlash_slash_cons, splitSlash_slash_cons,
        splitSlash_append_noSlash s hs t,
        modifyLastSeg_cons _ _ _ (splitSlash_ne_nil t)]
    · obtain ⟨h, r, ht⟩ : ∃ h r, splitSlash t = h :: r := by
        cases hst : splitSlash t with
        | nil => exact absurd hst (splitSlash_ne_nil t)
        | cons h r => exact ⟨h, r, rfl⟩
      have IH := splitSlash_append_noSlash s hs t
      rw [ht] at IH
      cases r with
      | nil =>
        rw [List.cons_append,
          splitSlash_cons_ne c _ hc _ _ (by rw [IH]; rfl),
          splitSlash_cons_ne c t hc h [] ht]
        rfl
      | cons r0 rs =>
        have IH2 : splitSlash (t ++ s) =
            h :: modifyLastSeg (fun x => x ++ s) (r0 :: rs) := by
          rw [IH]
          rfl
        rw [List.cons_append, splitSlash_cons_ne c _ hc _ _ IH2,
          splitSlash_cons_ne c t hc h (r0 :: rs) ht]
        rfl

theorem mem_splitSlash_dropWhileSlash :
    ∀ (p : Str) (seg : Str),
      seg ∈ splitSlash (p.dropWhile (fun c => c = '/')) →
        seg ∈ splitSlash p
  | [], _, h => h
  | c :: t, seg, h => by
    by_cases hc : c = '/'
    · subst hc
      have hred : ('/' :: t).dropWhile (fun c => c = '/') =
          t.dropWhile (fun c => c = '/') := by
        simp [List.dropWhile_cons]
      rw [hred] at h
      rw [splitSlash_slash_cons]
      exact List.mem_cons_of_mem _ (mem_splitSlash_dropWhileSlash t seg h)
    · have hred : (c :: t).dropWhile (fun c => c = '/') = c :: t := by
        simp [List.dropWhile_cons, hc]
      rw [hred] at h
      exact h

theorem dropWhileSlash_headD (p : Str) :
    ((p.dropWhile (fun c => c = '/')).headD ' ') ≠ '/' := by
  induction p with
  | nil => simp
  | cons c t ih =>
    rw [List.dropWhile_cons]
    by_cases hc : c = '/'
    · simpa [hc] using ih
    · simp [hc]

theorem rfindSub_char_none {ch : Char} :
    ∀ p : Str, rfindSub [ch] p = none → ∀ c ∈ p, c ≠ ch := by
  intro p
  induction p with
  | nil => intro _ c hc; cases hc
  | cons x xs ih =>
    intro h c hc
    rw [rfindSub] at h
    split at h
    · cases h
    · rename_i hr
      split at h
      · cases h
      · rename_i hp
        rcases List.mem_cons.mp hc with rfl | hc2
        · intro he
          exact hp (by simp [List.isPrefixOf, he])
        · exact ih hr c hc2

theorem rfindSub_char_after {ch : Char} :
    ∀ (p : Str) (i : Nat), rfindSub [ch] p = some i →
      ∀ c ∈ p.drop (i + 1), c ≠ ch
  | [], i, _, c, hc => by simp at hc
  | x :: xs, i, h, c, hc => by
    rw [rfindSub] at h
    split at h
    · rename_i j hr
      injection h with h0
      subst h0
      exact rfindSub_char_after xs j hr c hc
    · rename_i hr
      split at h
      · injection h with h0
        subst h0
        exact rfindSub_char_none xs hr c hc
      · cases h

theorem os_path_splitext_concat (p : Str) :
    (os_path_splitext p).1 ++ (os_path_splitext p).2 = p := by
  rw [os_path_splitext]
  split
  · simp
  · split
    · split
      · exact List.take_append_drop _ p
      · simp
    · split
      · split
        · exact List.take_append_drop _ p
        · simp
      · simp

theorem os_path_splitext_noSlash (p : Str) :
    ∀ c ∈ (os_path_splitext p).2, c ≠ '/' := by
  intro c hc
  rw [os_path_splitext] at hc
  split at hc
  · simp at hc
  · rename_i d hd
    split at hc
    · rename_i hsl
      split at hc
      · exact rfindSub_char_none p hsl c (List.drop_subset _ _ hc)
      · simp at hc
    · rename_i s2 hsl
      split at hc
      · rename_i hle
        split at hc
        · have hmem : c ∈ p.drop (s2 + 1) := by
            have hdd : p.drop d = (p.drop (s2 + 1)).drop (d - (s2 + 1)) := by
              rw [List.drop_drop]
              congr 1
              omega
            rw [hdd] at hc
            exact List.drop_subset _ _ hc
          exact rfindSub_char_after p s2 hsl c hmem
        · simp at hc
      · simp at hc

theorem getD_ne_slash :
    ∀ (l : List Char) (n : Nat) (d : Char), (∀ c ∈ l, c ≠ '/') →
      d ≠ '/' → l.getD n d ≠ '/'
  | [], _, _, _, hd => by simpa using hd
  | x :: _, 0, _, hl, _ => hl x (List.mem_cons_self _ _)
  | x :: xs, n + 1, d, hl, hd =>
    getD_ne_slash xs n d (fun c hc => hl c (List.mem_cons_of_mem x hc)) hd

theorem hexDigit_ne_slash (n : Nat) : hexDigit n ≠ '/' :=
  getD_ne_slash _ n '0' (by decide) (by decide)

theorem md5h8_noSlash (q : Str) : ∀ c ∈ md5h8 q, c ≠ '/' := by
  intro c hc
  rw [md5h8] at hc
  have hc2 := List.take_subset _ _ hc
  rw [md5hex] at hc2
  obtain ⟨b, _, hb⟩ := List.mem_flatMap.mp hc2
  rw [hexByte] at hb
  rcases List.mem_cons.mp hb with rfl | hb
  · exact hexDigit_ne_slash _
  · rcases List.mem_cons.mp hb with rfl | hb
    · exact hexDigit_ne_slash _
    · simp at hb

theorem append_long_ne_dotdot (x s : Str) (hs : 2 < s.length) :
    x ++ s ≠ "..".toList := by
  intro h
  have hlen := congrArg List.length h
  rw [List.length_append] at hlen
  have h2 : ("..".toList : Str).length = 2 := rfl
  omega

theorem foldl_resolveStep_head :
    ∀ (segs : List Str) (stack : List Str),
      (∀ s ∈ segs, s ≠ "..".toList) → stack ≠ [] →
        (segs.foldl resolveStep stack).head? = stack.head? ∧
          segs.foldl resolveStep stack ≠ []
  | [], _, _, hne => ⟨rfl, hne⟩
  | s :: rest, stack, hsafe, hne => by
    rw [List.foldl_cons]
    have hstep : (resolveStep stack s).head? = stack.head? ∧
        resolveStep stack s ≠ [] := by
      rw [resolveStep]
      split
      · exact ⟨rfl, hne⟩
      · rw [if_neg (hsafe s (List.mem_cons_self s rest))]
        cases stack with
        | nil => exact absurd rfl hne
        | cons a t => exact ⟨rfl, by simp⟩
    obtain ⟨h1, h2⟩ := hstep
    obtain ⟨h3, h4⟩ := foldl_resolveStep_head rest (resolveStep stack s)
      (fun x hx => hsafe x (List.mem_cons_of_mem s hx)) h2
    exact ⟨h3.trans h1, h4⟩

theorem confined_of_outHeaded (out p : Str)
    (h : ∃ T, T ≠ [] ∧ splitSlash p = out :: T ∧
      ∀ seg ∈ T, seg ≠ "..".toList)
    (h1 : ¬(out = [] ∨ out = ".".toList)) (h2 : out ≠ "..".toList) :
    confined out p := by
  obtain ⟨T, _, hsp, hTsafe⟩ := h
  rw [confined, resolveSegs, hsp, List.foldl_cons]
  have hstep : resolveStep [] out = [out] := by
    rw [resolveStep, if_neg h1, if_neg h2]
    rfl
  rw [hstep]
  exact (foldl_resolveStep_head T [out] hTsafe (by simp)).1

theorem outHeaded_join (out r : Str)
    (hout1 : ∀ c ∈ out, c ≠ '/') (hout2 : out ≠ [])
    (hrHead : r.headD ' ' ≠ '/')
    (hr : ∀ seg ∈ splitSlash r, seg ≠ "..".toList) :
    ∃ T, T ≠ [] ∧ splitSlash (os_path_join out r) = out :: T ∧
      ∀ seg ∈ T, seg ≠ "..".toList := by
  have hjoin : os_path_join out r = out ++ '/' :: r := by
    rw [os_path_join, if_neg hrHead, if_neg hout2, if_neg ?hl]
    case hl =>
      intro hlast
      have hmem : '/' ∈ out := by
        obtain ⟨hne, heq⟩ := List.mem_getLast?_eq_getLast (x := '/') hlast
        exact heq ▸ List.getLast_mem hne
      exact hout1 '/' hmem rfl
  rw [hjoin, splitSlash_append r out, splitSlash_noSlash out hout1]
  exact ⟨splitSlash r, splitSlash_ne_nil r, rfl, hr⟩

theorem outHeaded_append (out p s : Str)
    (hp : ∃ T, T ≠ [] ∧ splitSlash p = out :: T ∧
      ∀ seg ∈ T, seg ≠ "..".toList)
    (hs : ∀ c ∈ s, c ≠ '/')
    (hfs : ∀ x : Str, x ++ s ≠ "..".toList) :
    ∃ T, T ≠ [] ∧ splitSlash (p ++ s) = out :: T ∧
      ∀ seg ∈ T, seg ≠ "..".toList := by
  obtain ⟨T, hTne, hsp, hTsafe⟩ := hp
  refine ⟨modifyLastSeg (fun x => x ++ s) T,
    modifyLastSeg_ne_nil _ _ hTne, ?_, ?_⟩
  · rw [splitSlash_append_noSlash s hs p, hsp,
      modifyLastSeg_cons _ _ _ hTne]
  · exact mem_modifyLastSeg _ T
      (fun x hx => hTsafe x (List.dropLast_subset _ hx)) hfs

theorem outHeaded_query (out p q : Str)
    (hp : ∃ T, T ≠ [] ∧ splitSlash p = out :: T ∧
      ∀ seg ∈ T, seg ≠ "..".toList) :
    ∃ T, T ≠ [] ∧
      splitSlash ((os_path_splitext p).1 ++
        '_' :: (md5h8 q ++ (os_path_splitext p).2)) = out :: T ∧
      ∀ seg ∈ T, seg ≠ "..".toList := by
  obtain ⟨T, hTne, hsp, hTsafe⟩ := hp
  have hext := os_path_splitext_noSlash p
  obtain ⟨b0, brest, hbase⟩ :
      ∃ b0 brest, splitSlash (os_path_splitext p).1 = b0 :: brest := by
    cases hb : splitSlash (os_path_splitext p).1 with
    | nil => exact absurd hb (splitSlash_ne_nil _)
    | cons b0 brest => exact ⟨b0, brest, rfl⟩
  have hsplit0 : out :: T =
      modifyLastSeg (fun x => x ++ (os_path_splitext p).2)
        (b0 :: brest) := by
    rw [← hsp, ← hbase]
    conv_lhs => rw [← os_path_splitext_concat p]
    exact splitSlash_append_noSlash _ hext _
  cases brest with
  | nil =>
    rw [show modifyLastSeg (fun x => x ++ (os_path_splitext p).2) [b0] =
        [b0 ++ (os_path_splitext p).2] from rfl] at hsplit0
    injection hsplit0 with h1 h2
    exact absurd h2 hTne
  | cons b1 bs =>
    rw [modifyLastSeg_cons _ _ _ (by simp)] at hsplit0
    injection hsplit0 with h1 h2
    subst h1
    have hm : ∀ c ∈ ('_' :: (md5h8 q ++ (os_path_splitext p).2)),
        c ≠ '/' := by
      intro c hcm
      rcases List.mem_cons.mp hcm with rfl | hcm
      · decide
      · rcases List.mem_append.mp hcm with hcm | hcm
        · exact md5h8_noSlash q c hcm
        · exact hext c hcm
    refine ⟨modifyLastSeg
        (fun x => x ++ ('_' :: (md5h8 q ++ (os_path_splitext p).2)))
        (b1 :: bs),
      modifyLastSeg_ne_nil _ _ (by simp), ?_, ?_⟩
    · rw [splitSlash_append_noSlash _ hm _, hbase,
        modifyLastSeg_cons _ _ _ (by simp)]
    · refine mem_modifyLastSeg _ _ ?_ ?_
      · intro x hx
        apply hTsafe
        rw [h2]
        have hx2 : x ∈ (modifyLastSeg
            (fun x => x ++ (os_path_splitext p).2) (b1 :: bs)).dropLast := by
          rw [modifyLastSeg_dropLast]
          exact hx
        exact List.dropLast_subset _ hx2
      · intro x hcontra
        have hmem : '_' ∈ ("..".toList : Str) := by
          rw [← hcontra]
          exact List.mem_append.mpr (Or.inr (List.mem_cons_self _ _))
        exact absurd hmem (by decide)

/-- C10 fails as stated: `..` segments in the URL path survive into the
computed local path, which then resolves outside the output root. -/
theorem C10_counterexample :
    compute_local_path "out".toList "http://e.com/../../x".toList false =
        "out/../../x".toList ∧
      ¬ confined "out".toList
          (compute_local_path "out".toList "http://e.com/../../x".toList
            false) := by decide

/-- C10 (amended): when the output root is a single clean directory
name (no slash, not empty, not `.` or `..`) and the URL's parsed path
contains no `..` segment, the computed local path resolves inside the
output root; a `..` segment in the URL path defeats confinement, as the
counterexample shows. -/
theorem C10_confinement_amended (out url : Str) (ae : Bool)
    (hout1 : ∀ c ∈ out, c ≠ '/')
    (hout2 : ¬(out = [] ∨ out = ".".toList))
    (hout4 : out ≠ "..".toList)
    (hsegs : ∀ seg ∈ splitSlash (pyUrlparse url).path,
      seg ≠ "..".toList) :
    confined out (compute_local_path out url ae) := by
  have hout2n : out ≠ [] := fun h => hout2 (Or.inl h)
  apply confined_of_outHeaded _ _ ?_ hout2 hout4
  simp only [compute_local_path]
  have hpath1 : ∀ seg ∈ splitSlash
      (if (pyUrlparse url).path.getLast? = some '/' then
        (pyUrlparse url).path ++ "index.html".toList
      else (pyUrlparse url).path), seg ≠ "..".toList := by
    split
    · rw [splitSlash_append_noSlash "index.html".toList (by decide) _]
      exact mem_modifyLastSeg _ _
        (fun x hx => hsegs x (List.dropLast_subset _ hx))
        (fun x => append_long_ne_dotdot x _ (by decide))
    · exact hsegs
  have hrest : ∀ seg ∈ splitSlash
      ((if (pyUrlparse url).path.getLast? = some '/' then
          (pyUrlparse url).path ++ "index.html".toList
        else (pyUrlparse url).path).dropWhile (fun c => c = '/')),
      seg ≠ "..".toList :=
    fun seg hseg => hpath1 seg (mem_splitSlash_dropWhileSlash _ seg hseg)
  have hJ := outHeaded_join out _ hout1 hout2n (dropWhileSlash_headD _) hrest
  split
  · split
    · exact outHeaded_append out _ ".html".toList hJ (by decide)
        (fun x => append_long_ne_dotdot x _ (by decide))
    · exact outHeaded_append out _ ".html".toList
        (outHeaded_query out _ _ hJ) (by decide)
        (fun x => append_long_ne_dotdot x _ (by decide))
  · split
    · exact hJ
    · exact outHeaded_query out _ _ hJ

/-- C10 witness: a clean URL stays inside the output root. -/
theorem C10_witness :
    confined "out".toList
      (compute_local_path "out".toList "http://e.com/a/b.png".toList
        false) :=
  C10_confinement_amended _ _ _ (by decide) (by decide) (by decide)
    (by decide)

end Ripper
